import Mathlib

/-!
Shallow embedding of `consensus/equality/header_extra.go` from go-secret:
the header-extra payload model, its gzip+RLP envelope codec, the byte-range
extraction against vanity/seal boundaries, the deep-equality engine, the
divergence reporter and the address-set helpers, together with proofs of
the specified laws.
-/

namespace Equality

/-- Modelled from the spec: `common.Hash` (repo code outside src/) is an opaque
fixed-width hash value compared by exact equality; only equality and a
fixed-length hexadecimal rendering are used by this core. -/
abbrev Hash := Nat

/-- Modelled from the spec: `common.Address` (repo code outside src/) is an
opaque fixed-width chain address compared by exact equality. -/
abbrev Address := Nat

/-- Modelled from the spec: `params.EqualityConfig` (repo code outside src/) is
an opaque per-chain configuration snapshot, "independently comparable via its
own equality contract". -/
structure EqualityConfig where
  raw : Nat
deriving DecidableEq

/-- Modelled from the spec: `EqualityConfig.Equal` is the snapshot's own
equality contract (exact comparison of the opaque value). -/
def EqualityConfig.Equal (config other : EqualityConfig) : Bool :=
  decide (config = other)

/-- `Root` is the state tree root: four content hashes. -/
structure Root where
  EpochHash : Hash
  CandidateHash : Hash
  MintCntHash : Hash
  ConfigHash : Hash
deriving DecidableEq

/-- One hexadecimal digit character. -/
def hexDigitChar (n : Nat) : Char :=
  if n < 10 then Char.ofNat (48 + n) else Char.ofNat (97 + (n - 10))

/-- Big-endian, zero-padded hexadecimal rendering at a fixed width. -/
def hexPadChars : Nat → Nat → List Char
  | 0, _ => []
  | w + 1, v => hexPadChars w (v / 16) ++ [hexDigitChar (v % 16)]

/-- Modelled from the spec: `common.Hash.String` (repo code outside src/)
renders the hash as a fixed-length hexadecimal string for diagnostics. -/
def Hash.string (h : Hash) : String :=
  "0x" ++ String.mk (hexPadChars 64 h)

/-- The list of lines built by `Root.PrintDifference` (source lines 24-40):
the block number first, then one line per mismatching hash field. -/
def Root.printDifferenceLines (root : Root) (number : Nat) (other : Root) : List String :=
  let slice : List String := ["BlockNumber: " ++ Nat.repr number]
  let slice := if root.EpochHash ≠ other.EpochHash then
    slice ++ ["EpochHash: " ++ Hash.string root.EpochHash ++ " ---- " ++ Hash.string other.EpochHash]
  else slice
  let slice := if root.CandidateHash ≠ other.CandidateHash then
    slice ++ ["CandidateHash: " ++ Hash.string root.CandidateHash ++ " ---- " ++ Hash.string other.CandidateHash]
  else slice
  let slice := if root.MintCntHash ≠ other.MintCntHash then
    slice ++ ["MintCntHash: " ++ Hash.string root.MintCntHash ++ " ---- " ++ Hash.string other.MintCntHash]
  else slice
  let slice := if root.ConfigHash ≠ other.ConfigHash then
    slice ++ ["ConfigHash: " ++ Hash.string root.ConfigHash ++ " ---- " ++ Hash.string other.ConfigHash]
  else slice
  slice

/-- The full text printed by `Root.PrintDifference`: the fixed banner line
followed by the newline-joined difference lines. -/
def Root.printDifferenceOutput (root : Root) (number : Nat) (other : Root) : String :=
  "######### Root Hash Difference #########\n" ++
    String.intercalate "\n" (root.printDifferenceLines number other) ++ "\n"

/-- `HeaderExtra` is the struct of info in
`header.Extra[extraVanity:len(header.extra)-extraSeal]`. -/
structure HeaderExtra where
  Root : Root
  Epoch : Nat
  EpochBlock : Nat
  CurrentBlockCandidates : List Address
  CurrentBlockKickOutCandidates : List Address
  CurrentBlockCancelCandidates : List Address
  CurrentEpochValidators : List Address
  ChainConfig : List EqualityConfig
deriving DecidableEq

/-- The Go zero value `HeaderExtra{}`: zero hashes, zero counters, empty lists. -/
def zeroHeaderExtra : HeaderExtra :=
  { Root := { EpochHash := 0, CandidateHash := 0, MintCntHash := 0, ConfigHash := 0 }
    Epoch := 0
    EpochBlock := 0
    CurrentBlockCandidates := []
    CurrentBlockKickOutCandidates := []
    CurrentBlockCancelCandidates := []
    CurrentEpochValidators := []
    ChainConfig := [] }

/-! ### Envelope codec

`rlp` (a package of this repository, outside src/) and `compress/gzip` are
modelled from the spec: a deterministic, order-preserving structured binary
serializer, wrapped in a general-purpose stream compressor with fixed framing
whose opening fails on an invalid header and whose draining fails when the
stream does not end cleanly. -/

/-- A self-delimiting binary encoding of an unsigned integer
(little-endian base-128 with a continuation bit). -/
def encNat (n : Nat) : List Nat :=
  if h : n < 128 then [n]
  else (n % 128 + 128) :: encNat (n / 128)
termination_by n
decreasing_by exact Nat.div_lt_self (by omega) (by omega)

/-- Reads back one `encNat`-encoded integer, returning it with the remaining
bytes, or `none` on truncated input. -/
def decNat : List Nat → Option (Nat × List Nat)
  | [] => none
  | b :: rest =>
    if b < 128 then some (b, rest)
    else
      match decNat rest with
      | some (m, rest') => some (m * 128 + (b - 128), rest')
      | none => none

/-- Serializes a sequence: its length, then each element in original order. -/
def encListOf (f : α → List Nat) (l : List α) : List Nat :=
  encNat l.length ++ (l.map f).flatten

/-- Reads back `n` elements with the element reader `f`. -/
def decListOf (f : List Nat → Option (α × List Nat)) :
    Nat → List Nat → Option (List α × List Nat)
  | 0, rest => some ([], rest)
  | n + 1, rest =>
    match f rest with
    | some (a, rest') =>
      match decListOf f n rest' with
      | some (as, rest'') => some (a :: as, rest'')
      | none => none
    | none => none

/-- Reads back an `encListOf`-serialized sequence. -/
def decSeq (f : List Nat → Option (α × List Nat)) (bytes : List Nat) :
    Option (List α × List Nat) :=
  match decNat bytes with
  | some (n, rest) => decListOf f n rest
  | none => none

/-- Element reader for an `EqualityConfig` snapshot. -/
def decConfig (bytes : List Nat) : Option (EqualityConfig × List Nat) :=
  match decNat bytes with
  | some (n, rest) => some (⟨n⟩, rest)
  | none => none

/-- Modelled from the spec: `rlp.EncodeToBytes` on a `HeaderExtra` (repo code
outside src/) serializes the fields deterministically in declaration order,
sequence elements keeping their original order. -/
def rlpEncodeToBytes (headerExtra : HeaderExtra) : List Nat :=
  encNat headerExtra.Root.EpochHash ++
  encNat headerExtra.Root.CandidateHash ++
  encNat headerExtra.Root.MintCntHash ++
  encNat headerExtra.Root.ConfigHash ++
  encNat headerExtra.Epoch ++
  encNat headerExtra.EpochBlock ++
  encListOf encNat headerExtra.CurrentBlockCandidates ++
  encListOf encNat headerExtra.CurrentBlockKickOutCandidates ++
  encListOf encNat headerExtra.CurrentBlockCancelCandidates ++
  encListOf encNat headerExtra.CurrentEpochValidators ++
  encListOf (fun c => encNat c.raw) headerExtra.ChainConfig

/-- Reads back one serialized `HeaderExtra`, returning the remaining bytes. -/
def rlpDecodePayload (bytes : List Nat) : Option (HeaderExtra × List Nat) :=
  (decNat bytes).bind fun (epochHash, r1) =>
  (decNat r1).bind fun (candidateHash, r2) =>
  (decNat r2).bind fun (mintCntHash, r3) =>
  (decNat r3).bind fun (configHash, r4) =>
  (decNat r4).bind fun (epoch, r5) =>
  (decNat r5).bind fun (epochBlock, r6) =>
  (decSeq decNat r6).bind fun (candidates, r7) =>
  (decSeq decNat r7).bind fun (kickOut, r8) =>
  (decSeq decNat r8).bind fun (cancel, r9) =>
  (decSeq decNat r9).bind fun (validators, r10) =>
  (decSeq decConfig r10).bind fun (chainConfig, r11) =>
  some ({ Root := ⟨epochHash, candidateHash, mintCntHash, configHash⟩
          Epoch := epoch
          EpochBlock := epochBlock
          CurrentBlockCandidates := candidates
          CurrentBlockKickOutCandidates := kickOut
          CurrentBlockCancelCandidates := cancel
          CurrentEpochValidators := validators
          ChainConfig := chainConfig }, r11)

/-- Modelled from the spec: `rlp.DecodeBytes` into a `HeaderExtra` (repo code
outside src/); fails on malformed, truncated, or trailing structured data. -/
def rlpDecodeBytes (bytes : List Nat) : Option HeaderExtra :=
  match rlpDecodePayload bytes with
  | some (headerExtra, []) => some headerExtra
  | _ => none

/-- Modelled from the spec: the stream compressor (`gzip` in the source) with
its fixed framing: a two-byte stream header, then the framed body. -/
def gzipCompress (data : List Nat) : List Nat :=
  31 :: 139 :: (encNat data.length ++ data)

/-- Modelled from the spec: opening and fully draining the compressed stream.
Fails (`none`) when the stream header is invalid, or when the stream ends
other than with a clean end-of-stream (truncated or overlong body). -/
def gzipDecompress (data : List Nat) : Option (List Nat) :=
  match data with
  | 31 :: 139 :: rest =>
    match decNat rest with
    | some (len, body) => if body.length = len then some body else none
    | none => none
  | _ => none

/-- The error values surfaced by decoding (spec taxonomy, section 7). -/
inductive HeaderExtraError where
  | missingVanity
  | missingSignature
  | envelopeCorrupt
  | schemaMismatch
deriving DecidableEq

/-- `NewHeaderExtra` (source lines 56-82): new `HeaderExtra` from rlp bytes.
Mirrors the Go pair return `(HeaderExtra, error)`: the zero value accompanies
every error. -/
def NewHeaderExtra (data : List Nat) : HeaderExtra × Option HeaderExtraError :=
  match gzipDecompress data with
  | none => (zeroHeaderExtra, some .envelopeCorrupt)
  | some buffer =>
    match rlpDecodeBytes buffer with
    | none => (zeroHeaderExtra, some .schemaMismatch)
    | some headerExtra => (headerExtra, none)

/-- `HeaderExtra.Encode` (source lines 85-96): encode header extra as rlp
bytes, then compress. Total: the error component is always `none`. -/
def HeaderExtra.Encode (headerExtra : HeaderExtra) : List Nat × Option HeaderExtraError :=
  (gzipCompress (rlpEncodeToBytes headerExtra), none)

/-! ### Equality engine -/

/-- The per-index loop over `ChainConfig` in `HeaderExtra.Equal`, using each
element's own `Equal` contract; runs over the left list (lengths are checked
before the loop in the source). -/
def configsEqualInOrder : List EqualityConfig → List EqualityConfig → Bool
  | [], _ => true
  | _ :: _, [] => false
  | c :: cs, d :: ds => c.Equal d && configsEqualInOrder cs ds

/-- The per-index loop over an address list in `HeaderExtra.Equal`. -/
def addressesEqualInOrder : List Address → List Address → Bool
  | [], _ => true
  | _ :: _, [] => false
  | a :: as, b :: bs => (a == b) && addressesEqualInOrder as bs

/-- `HeaderExtra.Equal` (source lines 99-155): deep, order-sensitive
comparison; the Go early returns become a short-circuiting conjunction. -/
def HeaderExtra.Equal (headerExtra other : HeaderExtra) : Bool :=
  decide (headerExtra.Root = other.Root) &&
  (headerExtra.Epoch == other.Epoch) &&
  (headerExtra.EpochBlock == other.EpochBlock) &&
  (headerExtra.ChainConfig.length == other.ChainConfig.length) &&
  configsEqualInOrder headerExtra.ChainConfig other.ChainConfig &&
  (headerExtra.CurrentBlockCandidates.length == other.CurrentBlockCandidates.length) &&
  addressesEqualInOrder headerExtra.CurrentBlockCandidates other.CurrentBlockCandidates &&
  (headerExtra.CurrentBlockKickOutCandidates.length == other.CurrentBlockKickOutCandidates.length) &&
  addressesEqualInOrder headerExtra.CurrentBlockKickOutCandidates other.CurrentBlockKickOutCandidates &&
  (headerExtra.CurrentBlockCancelCandidates.length == other.CurrentBlockCancelCandidates.length) &&
  addressesEqualInOrder headerExtra.CurrentBlockCancelCandidates other.CurrentBlockCancelCandidates &&
  (headerExtra.CurrentEpochValidators.length == other.CurrentEpochValidators.length) &&
  addressesEqualInOrder headerExtra.CurrentEpochValidators other.CurrentEpochValidators

/-! ### Byte-range extraction -/

/-- Modelled from the spec: `types.Header` (repo code outside src/) as seen by
this core: only its `Extra` byte field is consumed. -/
structure Header where
  Extra : List Nat

/-- `DecodeHeaderExtra` (source lines 157-166). The boundary constants
`extraVanity` and `extraSeal` live in this repository outside src/; per the
spec (section 9) they are threaded as explicit parameters. -/
def DecodeHeaderExtra (extraVanity extraSeal : Nat) (header : Header) :
    HeaderExtra × Option HeaderExtraError :=
  let headerExtra := header.Extra
  if headerExtra.length < extraVanity then
    (zeroHeaderExtra, some .missingVanity)
  else if headerExtra.length < extraVanity + extraSeal then
    (zeroHeaderExtra, some .missingSignature)
  else
    NewHeaderExtra ((headerExtra.take (headerExtra.length - extraSeal)).drop extraVanity)

/-! ### Address-set helpers -/

/-- `addressesExist` (source lines 169-176): whether an address exists in the
address list (linear scan). -/
def addressesExist : List Address → Address → Bool
  | [], _ => false
  | address :: rest, addr => if address = addr then true else addressesExist rest addr

/-- The dedup loop of `addressesDistinct`: `seen` holds the addresses already
emitted (the Go `set`, whose members are exactly the `result` built so far);
kept elements are emitted in input order. -/
def distinctLoop (seen : List Address) : List Address → List Address
  | [] => []
  | address :: rest =>
    if address ∈ seen then distinctLoop seen rest
    else address :: distinctLoop (address :: seen) rest

/-- `addressesDistinct` (source lines 179-193): ensure each element of an
address slice is distinct; slices of length at most 1 are returned unchanged. -/
def addressesDistinct (slice : List Address) : List Address :=
  if slice.length ≤ 1 then slice
  else distinctLoop [] slice

/-- `addressesRemove` (source lines 196-204): remove every occurrence of an
address from the list, keeping the rest in order. -/
def addressesRemove : List Address → Address → List Address
  | [], _ => []
  | address :: rest, addr =>
    if address ≠ addr then address :: addressesRemove rest addr
    else addressesRemove rest addr

/-- Reference for the order law: keeps exactly the elements that do not occur
earlier in the input (first occurrences), in input order; `pre` is the prefix
already scanned. -/
def firstOccurrencesFrom (pre : List Address) : List Address → List Address
  | [] => []
  | address :: rest =>
    if address ∈ pre then firstOccurrencesFrom (pre ++ [address]) rest
    else address :: firstOccurrencesFrom (pre ++ [address]) rest

/-! ### Codec lemmas -/

theorem decNat_encNat (n : Nat) (r : List Nat) : decNat (encNat n ++ r) = some (n, r) := by
  induction n using Nat.strong_induction_on with
  | _ n ih =>
    by_cases h : n < 128
    · unfold encNat
      simp [h, decNat]
    · unfold encNat
      have hb : ¬ (n % 128 + 128 < 128) := by omega
      have hdiv : n / 128 < n := Nat.div_lt_self (by omega) (by omega)
      simp only [h, dite_false, List.cons_append, decNat, hb, if_false,
        ih (n / 128) hdiv]
      have := Nat.div_add_mod n 128
      simp only [Option.some.injEq, Prod.mk.injEq, and_true]
      omega

theorem decListOf_encListOf {α : Type} (f : List Nat → Option (α × List Nat))
    (g : α → List Nat) (hf : ∀ a r, f (g a ++ r) = some (a, r)) :
    ∀ (l : List α) (r : List Nat), decListOf f l.length ((l.map g).flatten ++ r) = some (l, r)
  | [], r => by simp [decListOf]
  | a :: l, r => by
    simp [decListOf, List.append_assoc, hf, decListOf_encListOf f g hf l r]

theorem decSeq_encListOf {α : Type} (f : List Nat → Option (α × List Nat))
    (g : α → List Nat) (hf : ∀ a r, f (g a ++ r) = some (a, r))
    (l : List α) (r : List Nat) : decSeq f (encListOf g l ++ r) = some (l, r) := by
  simp [decSeq, encListOf, List.append_assoc, decNat_encNat,
    decListOf_encListOf f g hf l r]

theorem decConfig_encNat (c : EqualityConfig) (r : List Nat) :
    decConfig (encNat c.raw ++ r) = some (c, r) := by
  cases c
  simp [decConfig, decNat_encNat]

theorem rlpDecodePayload_encode (p : HeaderExtra) (r : List Nat) :
    rlpDecodePayload (rlpEncodeToBytes p ++ r) = some (p, r) := by
  have haddr : ∀ (l : List Address) (r' : List Nat),
      decSeq decNat (encListOf encNat l ++ r') = some (l, r') :=
    decSeq_encListOf decNat encNat decNat_encNat
  have hcfg : ∀ (l : List EqualityConfig) (r' : List Nat),
      decSeq decConfig (encListOf (fun c => encNat c.raw) l ++ r') = some (l, r') :=
    decSeq_encListOf decConfig (fun c => encNat c.raw) (fun a r' => decConfig_encNat a r')
  cases p with
  | mk root epoch epochBlock candidates kickOut cancel validators chainConfig =>
    cases root
    simp only [rlpEncodeToBytes, rlpDecodePayload, List.append_assoc, decNat_encNat,
      haddr, hcfg, Option.some_bind]

theorem rlpDecodeBytes_encode (p : HeaderExtra) :
    rlpDecodeBytes (rlpEncodeToBytes p) = some p := by
  have h := rlpDecodePayload_encode p []
  rw [List.append_nil] at h
  simp [rlpDecodeBytes, h]

theorem gzipDecompress_gzipCompress (data : List Nat) :
    gzipDecompress (gzipCompress data) = some data := by
  simp [gzipCompress, gzipDecompress, decNat_encNat]

theorem newHeaderExtra_encode (p : HeaderExtra) :
    NewHeaderExtra (p.Encode).1 = (p, none) := by
  simp [HeaderExtra.Encode, NewHeaderExtra, gzipDecompress_gzipCompress, rlpDecodeBytes_encode]

/-! ### Equality-engine lemmas -/

theorem addressesEqualInOrder_refl : ∀ s : List Address, addressesEqualInOrder s s = true
  | [] => rfl
  | a :: s => by simp [addressesEqualInOrder, addressesEqualInOrder_refl s]

theorem configsEqualInOrder_refl : ∀ s : List EqualityConfig, configsEqualInOrder s s = true
  | [] => rfl
  | c :: s => by simp [configsEqualInOrder, EqualityConfig.Equal, configsEqualInOrder_refl s]

theorem addressesEqualInOrder_iff :
    ∀ s t : List Address, s.length = t.length →
      (addressesEqualInOrder s t = true ↔ s = t)
  | [], [], _ => by simp [addressesEqualInOrder]
  | [], _ :: _, h => by simp at h
  | _ :: _, [], h => by simp at h
  | a :: s, b :: t, h => by
    simp only [addressesEqualInOrder, Bool.and_eq_true, beq_iff_eq, List.cons.injEq]
    rw [addressesEqualInOrder_iff s t (by simpa using h)]

theorem configsEqualInOrder_iff :
    ∀ s t : List EqualityConfig, s.length = t.length →
      (configsEqualInOrder s t = true ↔ s = t)
  | [], [], _ => by simp [configsEqualInOrder]
  | [], _ :: _, h => by simp at h
  | _ :: _, [], h => by simp at h
  | c :: s, d :: t, h => by
    simp only [configsEqualInOrder, EqualityConfig.Equal, Bool.and_eq_true,
      decide_eq_true_eq, List.cons.injEq]
    rw [configsEqualInOrder_iff s t (by simpa using h)]

theorem headerExtra_equal_iff_eq (a b : HeaderExtra) : a.Equal b = true ↔ a = b := by
  constructor
  · intro h
    simp only [HeaderExtra.Equal, Bool.and_eq_true, decide_eq_true_eq, beq_iff_eq] at h
    obtain ⟨⟨⟨⟨⟨⟨⟨⟨⟨⟨⟨⟨hroot, hepoch⟩, hblock⟩, hcfgLen⟩, hcfg⟩, hcandLen⟩, hcand⟩,
      hkickLen⟩, hkick⟩, hcancelLen⟩, hcancel⟩, hvalLen⟩, hval⟩ := h
    cases a; cases b
    simp only [HeaderExtra.mk.injEq]
    exact ⟨hroot, hepoch, hblock,
      (addressesEqualInOrder_iff _ _ hcandLen).1 hcand,
      (addressesEqualInOrder_iff _ _ hkickLen).1 hkick,
      (addressesEqualInOrder_iff _ _ hcancelLen).1 hcancel,
      (addressesEqualInOrder_iff _ _ hvalLen).1 hval,
      (configsEqualInOrder_iff _ _ hcfgLen).1 hcfg⟩
  · rintro rfl
    simp [HeaderExtra.Equal, addressesEqualInOrder_refl, configsEqualInOrder_refl]

/-! ### Address-set helper lemmas -/

theorem addressesExist_iff_mem : ∀ (s : List Address) (x : Address),
    addressesExist s x = true ↔ x ∈ s
  | [], x => by simp [addressesExist]
  | a :: s, x => by
    by_cases h : a = x
    · subst h
      simp [addressesExist]
    · simp only [addressesExist, h, if_false, addressesExist_iff_mem s x, List.mem_cons]
      constructor
      · exact Or.inr
      · rintro (rfl | hx)
        · exact absurd rfl h
        · exact hx

theorem mem_addressesRemove : ∀ (s : List Address) (x y : Address),
    y ∈ addressesRemove s x ↔ y ∈ s ∧ y ≠ x
  | [], x, y => by simp [addressesRemove]
  | a :: s, x, y => by
    by_cases h : a = x
    · subst h
      have hstep : addressesRemove (a :: s) a = addressesRemove s a := by
        simp [addressesRemove]
      rw [hstep]
      simp only [mem_addressesRemove s a y, List.mem_cons, ne_eq]
      constructor
      · rintro ⟨hy, hyx⟩
        exact ⟨Or.inr hy, hyx⟩
      · rintro ⟨rfl | hy, hyx⟩
        · exact absurd rfl hyx
        · exact ⟨hy, hyx⟩
    · simp only [addressesRemove, ne_eq, h, not_false_eq_true, if_true, List.mem_cons,
        mem_addressesRemove s x y, ne_eq]
      constructor
      · rintro (rfl | ⟨hy, hyx⟩)
        · exact ⟨Or.inl rfl, h⟩
        · exact ⟨Or.inr hy, hyx⟩
      · rintro ⟨rfl | hy, hyx⟩
        · exact Or.inl rfl
        · exact Or.inr ⟨hy, hyx⟩

theorem addressesRemove_sublist : ∀ (s : List Address) (x : Address),
    (addressesRemove s x).Sublist s
  | [], _ => List.Sublist.refl []
  | a :: s, x => by
    by_cases h : a = x
    · simp only [addressesRemove, h, ne_eq, not_true_eq_false, if_false]
      exact (addressesRemove_sublist s x).trans (List.sublist_cons_self x s)
    · simp only [addressesRemove, ne_eq, h, not_false_eq_true, if_true]
      exact (addressesRemove_sublist s x).cons₂ a

theorem addressesRemove_of_not_mem : ∀ (s : List Address) (x : Address),
    x ∉ s → addressesRemove s x = s
  | [], _, _ => rfl
  | a :: s, x, h => by
    have hax : a ≠ x := fun hax => h (hax ▸ List.mem_cons_self a s)
    simp only [addressesRemove, ne_eq, hax, not_false_eq_true, if_true,
      addressesRemove_of_not_mem s x (fun hx => h (List.mem_cons_of_mem a hx))]

/-! ### Dedup lemmas -/

theorem mem_distinctLoop : ∀ (l seen : List Address) (x : Address),
    x ∈ distinctLoop seen l ↔ x ∈ l ∧ x ∉ seen
  | [], seen, x => by simp [distinctLoop]
  | a :: l, seen, x => by
    by_cases h : a ∈ seen
    · simp only [distinctLoop, h, if_true, mem_distinctLoop l seen x, List.mem_cons]
      constructor
      · rintro ⟨hl, hs⟩
        exact ⟨Or.inr hl, hs⟩
      · rintro ⟨rfl | hl, hs⟩
        · exact absurd h hs
        · exact ⟨hl, hs⟩
    · simp only [distinctLoop, h, if_false, List.mem_cons, mem_distinctLoop l (a :: seen) x]
      constructor
      · rintro (rfl | ⟨hl, hs⟩)
        · exact ⟨Or.inl rfl, h⟩
        · exact ⟨Or.inr hl, fun hx => hs (Or.inr hx)⟩
      · rintro ⟨rfl | hl, hs⟩
        · exact Or.inl rfl
        · by_cases hxa : x = a
          · exact Or.inl hxa
          · refine Or.inr ⟨hl, fun hx => ?_⟩
            rcases hx with h1 | h2
            · exact hxa h1
            · exact hs h2

theorem distinctLoop_nodup : ∀ (l seen : List Address), (distinctLoop seen l).Nodup
  | [], _ => List.nodup_nil
  | a :: l, seen => by
    by_cases h : a ∈ seen
    · simpa only [distinctLoop, h, if_true] using distinctLoop_nodup l seen
    · simp only [distinctLoop, h, if_false, List.nodup_cons]
      refine ⟨fun hmem => ?_, distinctLoop_nodup l (a :: seen)⟩
      exact ((mem_distinctLoop l (a :: seen) a).1 hmem).2 (List.mem_cons_self a seen)

theorem distinctLoop_sublist : ∀ (l seen : List Address), (distinctLoop seen l).Sublist l
  | [], _ => List.Sublist.refl []
  | a :: l, seen => by
    by_cases h : a ∈ seen
    · simp only [distinctLoop, h, if_true]
      exact (distinctLoop_sublist l seen).trans (List.sublist_cons_self a l)
    · simp only [distinctLoop, h, if_false]
      exact (distinctLoop_sublist l (a :: seen)).cons₂ a

theorem distinctLoop_eq_self : ∀ (l seen : List Address), l.Nodup →
    (∀ x ∈ l, x ∉ seen) → distinctLoop seen l = l
  | [], _, _, _ => rfl
  | a :: l, seen, hnd, hdisj => by
    have ha : a ∉ seen := hdisj a (List.mem_cons_self a l)
    simp only [distinctLoop, ha, if_false, List.cons.injEq, true_and]
    refine distinctLoop_eq_self l (a :: seen) (List.Nodup.of_cons hnd) ?_
    intro x hx
    simp only [List.mem_cons, not_or]
    exact ⟨fun hxa => (List.nodup_cons.1 hnd).1 (hxa ▸ hx), hdisj x (List.mem_cons_of_mem a hx)⟩

theorem firstOccurrencesFrom_eq_distinctLoop : ∀ (l pre seen : List Address),
    (∀ x, x ∈ pre ↔ x ∈ seen) → firstOccurrencesFrom pre l = distinctLoop seen l
  | [], _, _, _ => rfl
  | a :: l, pre, seen, hiff => by
    have hnext : ∀ x, x ∈ pre ++ [a] ↔ x ∈ a :: seen := by
      intro x
      simp only [List.mem_append, List.mem_singleton, List.mem_cons, hiff x]
      tauto
    by_cases h : a ∈ seen
    · have hpre : a ∈ pre := (hiff a).2 h
      have hsame : ∀ x, x ∈ pre ++ [a] ↔ x ∈ seen := by
        intro x
        simp only [List.mem_append, List.mem_singleton, hiff x]
        constructor
        · rintro (hx | rfl)
          · exact hx
          · exact h
        · exact Or.inl
      simp only [firstOccurrencesFrom, hpre, if_true, distinctLoop, h,
        firstOccurrencesFrom_eq_distinctLoop l (pre ++ [a]) seen hsame]
    · have hpre : a ∉ pre := fun hx => h ((hiff a).1 hx)
      simp only [firstOccurrencesFrom, hpre, if_false, distinctLoop, h,
        firstOccurrencesFrom_eq_distinctLoop l (pre ++ [a]) (a :: seen) hnext]

theorem addressesDistinct_nodup (s : List Address) : (addressesDistinct s).Nodup := by
  unfold addressesDistinct
  by_cases h : s.length ≤ 1
  · simp only [h, if_true]
    match s, h with
    | [], _ => exact List.nodup_nil
    | [a], _ => exact List.nodup_singleton a
  · simp only [h, if_false]
    exact distinctLoop_nodup s []

theorem addressesDistinct_eq_distinctLoop : ∀ s : List Address,
    addressesDistinct s = distinctLoop [] s
  | [] => rfl
  | [a] => by simp [addressesDistinct, distinctLoop]
  | a :: b :: s => by
    simp only [addressesDistinct, List.length_cons]
    rw [if_neg (by omega)]

/-! ### The claims -/

/-- C1. Round-trip law: for every Payload `p`, decoding the bytes produced by
encoding `p` (RLP-serialize then gzip-compress, reversed on decode) yields a
Payload equal to `p` under the order-sensitive Equality Engine, and neither
encode nor decode fails on that path. -/
theorem round_trip_law (p : HeaderExtra) :
    (p.Encode).2 = none ∧
    (NewHeaderExtra (p.Encode).1).2 = none ∧
    ((NewHeaderExtra (p.Encode).1).1).Equal p = true := by
  refine ⟨rfl, ?_, ?_⟩
  · rw [newHeaderExtra_encode p]
  · rw [newHeaderExtra_encode p]
    exact (headerExtra_equal_iff_eq p p).2 rfl

/-- C2. Boundary law: if the blob is shorter than the vanity length the
extraction fails with MissingVanity; if shorter than vanity+seal it fails with
MissingSignature; otherwise exactly the middle slice
`blob[vanityLen : len(blob)-sealLen]` is passed onward, unconditionally. -/
theorem extract_boundary_law (extraVanity extraSeal : Nat) (header : Header) :
    (header.Extra.length < extraVanity →
      DecodeHeaderExtra extraVanity extraSeal header =
        (zeroHeaderExtra, some .missingVanity)) ∧
    (extraVanity ≤ header.Extra.length →
      header.Extra.length < extraVanity + extraSeal →
      DecodeHeaderExtra extraVanity extraSeal header =
        (zeroHeaderExtra, some .missingSignature)) ∧
    (extraVanity + extraSeal ≤ header.Extra.length →
      DecodeHeaderExtra extraVanity extraSeal header =
        NewHeaderExtra ((header.Extra.take (header.Extra.length - extraSeal)).drop extraVanity)) := by
  refine ⟨fun h1 => ?_, fun h1 h2 => ?_, fun h1 => ?_⟩
  · simp only [DecodeHeaderExtra]
    rw [if_pos h1]
  · simp only [DecodeHeaderExtra]
    rw [if_neg (by omega), if_pos h2]
  · simp only [DecodeHeaderExtra]
    rw [if_neg (by omega), if_neg (by omega)]

theorem extract_boundary_law_witness :
    DecodeHeaderExtra 2 3 ⟨[9]⟩ = (zeroHeaderExtra, some .missingVanity) ∧
    DecodeHeaderExtra 2 3 ⟨[9, 9, 9, 9]⟩ = (zeroHeaderExtra, some .missingSignature) ∧
    DecodeHeaderExtra 2 3 ⟨[9, 9, 8, 9, 9, 9]⟩ = NewHeaderExtra [8] :=
  ⟨(extract_boundary_law 2 3 ⟨[9]⟩).1 (by decide),
   (extract_boundary_law 2 3 ⟨[9, 9, 9, 9]⟩).2.1 (by decide) (by decide),
   (extract_boundary_law 2 3 ⟨[9, 9, 8, 9, 9, 9]⟩).2.2 (by decide)⟩

/-- C3. Equality is order-sensitive: Payloads agreeing on every field except
that one address list holds a different ordering of the same multiset are not
Equal; the same per-index rule applies to each of the four address lists. -/
theorem equal_order_sensitive (a b : HeaderExtra) :
    (a.Root = b.Root → a.Epoch = b.Epoch → a.EpochBlock = b.EpochBlock →
      a.ChainConfig = b.ChainConfig →
      a.CurrentBlockKickOutCandidates = b.CurrentBlockKickOutCandidates →
      a.CurrentBlockCancelCandidates = b.CurrentBlockCancelCandidates →
      a.CurrentEpochValidators = b.CurrentEpochValidators →
      List.Perm a.CurrentBlockCandidates b.CurrentBlockCandidates →
      a.CurrentBlockCandidates ≠ b.CurrentBlockCandidates →
      a.Equal b = false) ∧
    (a.Root = b.Root → a.Epoch = b.Epoch → a.EpochBlock = b.EpochBlock →
      a.ChainConfig = b.ChainConfig →
      a.CurrentBlockCandidates = b.CurrentBlockCandidates →
      a.CurrentBlockCancelCandidates = b.CurrentBlockCancelCandidates →
      a.CurrentEpochValidators = b.CurrentEpochValidators →
      List.Perm a.CurrentBlockKickOutCandidates b.CurrentBlockKickOutCandidates →
      a.CurrentBlockKickOutCandidates ≠ b.CurrentBlockKickOutCandidates →
      a.Equal b = false) ∧
    (a.Root = b.Root → a.Epoch = b.Epoch → a.EpochBlock = b.EpochBlock →
      a.ChainConfig = b.ChainConfig →
      a.CurrentBlockCandidates = b.CurrentBlockCandidates →
      a.CurrentBlockKickOutCandidates = b.CurrentBlockKickOutCandidates →
      a.CurrentEpochValidators = b.CurrentEpochValidators →
      List.Perm a.CurrentBlockCancelCandidates b.CurrentBlockCancelCandidates →
      a.CurrentBlockCancelCandidates ≠ b.CurrentBlockCancelCandidates →
      a.Equal b = false) ∧
    (a.Root = b.Root → a.Epoch = b.Epoch → a.EpochBlock = b.EpochBlock →
      a.ChainConfig = b.ChainConfig →
      a.CurrentBlockCandidates = b.CurrentBlockCandidates →
      a.CurrentBlockKickOutCandidates = b.CurrentBlockKickOutCandidates →
      a.CurrentBlockCancelCandidates = b.CurrentBlockCancelCandidates →
      List.Perm a.CurrentEpochValidators b.CurrentEpochValidators →
      a.CurrentEpochValidators ≠ b.CurrentEpochValidators →
      a.Equal b = false) := by
  have key : a ≠ b → a.Equal b = false := by
    intro hne
    cases heq : a.Equal b
    · rfl
    · exact absurd ((headerExtra_equal_iff_eq a b).1 heq) hne
  refine ⟨?_, ?_, ?_, ?_⟩ <;>
  · intro _ _ _ _ _ _ _ _ hne
    exact key (fun he => hne (by rw [he]))

theorem equal_order_sensitive_witness :
    HeaderExtra.Equal { zeroHeaderExtra with CurrentBlockCandidates := [1, 2] }
      { zeroHeaderExtra with CurrentBlockCandidates := [2, 1] } = false ∧
    HeaderExtra.Equal { zeroHeaderExtra with CurrentBlockKickOutCandidates := [1, 2] }
      { zeroHeaderExtra with CurrentBlockKickOutCandidates := [2, 1] } = false ∧
    HeaderExtra.Equal { zeroHeaderExtra with CurrentBlockCancelCandidates := [1, 2] }
      { zeroHeaderExtra with CurrentBlockCancelCandidates := [2, 1] } = false ∧
    HeaderExtra.Equal { zeroHeaderExtra with CurrentEpochValidators := [1, 2] }
      { zeroHeaderExtra with CurrentEpochValidators := [2, 1] } = false :=
  ⟨(equal_order_sensitive _ _).1 rfl rfl rfl rfl rfl rfl rfl (by decide) (by decide),
   (equal_order_sensitive _ _).2.1 rfl rfl rfl rfl rfl rfl rfl (by decide) (by decide),
   (equal_order_sensitive _ _).2.2.1 rfl rfl rfl rfl rfl rfl rfl (by decide) (by decide),
   (equal_order_sensitive _ _).2.2.2 rfl rfl rfl rfl rfl rfl rfl (by decide) (by decide)⟩

set_option maxRecDepth 40000 in
/-- C4. Divergence Reporter scenario: for Roots `a = {E1,C1,M1,F1}` and
`b = {E1,C2,M1,F2}` at block 42, the report holds exactly two field-difference
lines (CandidateHash and ConfigHash, formatted `Field: a ---- b`), begins with
`BlockNumber: 42`, and omits the EpochHash and MintCntHash lines. -/
theorem divergence_report_scenario :
    Root.printDifferenceLines ⟨1, 2, 4, 5⟩ 42 ⟨1, 3, 4, 6⟩ =
      ["BlockNumber: 42",
       "CandidateHash: 0x0000000000000000000000000000000000000000000000000000000000000002 ---- 0x0000000000000000000000000000000000000000000000000000000000000003",
       "ConfigHash: 0x0000000000000000000000000000000000000000000000000000000000000005 ---- 0x0000000000000000000000000000000000000000000000000000000000000006"] ∧
    (Root.printDifferenceLines ⟨1, 2, 4, 5⟩ 42 ⟨1, 3, 4, 6⟩).head? =
      some "BlockNumber: 42" ∧
    ("EpochHash: " ++ Hash.string 1 ++ " ---- " ++ Hash.string 1) ∉
      Root.printDifferenceLines ⟨1, 2, 4, 5⟩ 42 ⟨1, 3, 4, 6⟩ ∧
    ("MintCntHash: " ++ Hash.string 4 ++ " ---- " ++ Hash.string 4) ∉
      Root.printDifferenceLines ⟨1, 2, 4, 5⟩ 42 ⟨1, 3, 4, 6⟩ := by
  refine ⟨by decide, by decide, by decide, by decide⟩

/-- C5. Decode error taxonomy: decoding fails with EnvelopeCorrupt exactly when
opening/draining the compressed stream fails, with SchemaMismatch exactly when
the decompressed bytes are not a valid serialized Payload, and succeeds exactly
when both stages succeed. -/
theorem decode_error_taxonomy (data : List Nat) :
    ((NewHeaderExtra data).2 = some .envelopeCorrupt ↔ gzipDecompress data = none) ∧
    ((NewHeaderExtra data).2 = some .schemaMismatch ↔
      ∃ buffer, gzipDecompress data = some buffer ∧ rlpDecodeBytes buffer = none) ∧
    ((NewHeaderExtra data).2 = none ↔
      ∃ buffer headerExtra, gzipDecompress data = some buffer ∧
        rlpDecodeBytes buffer = some headerExtra) := by
  rcases hgz : gzipDecompress data with _ | buffer
  · simp [NewHeaderExtra, hgz]
  · rcases hdec : rlpDecodeBytes buffer with _ | he
    · simp [NewHeaderExtra, hgz, hdec]
    · simp [NewHeaderExtra, hgz, hdec]

/-- C6. The Equality Engine is reflexive and symmetric. -/
theorem equal_reflexive_symmetric :
    (∀ p : HeaderExtra, p.Equal p = true) ∧
    (∀ a b : HeaderExtra, a.Equal b = b.Equal a) := by
  constructor
  · intro p
    exact (headerExtra_equal_iff_eq p p).2 rfl
  · intro a b
    by_cases h : a = b
    · subst h
      rfl
    · have h1 : a.Equal b = false := by
        cases heq : a.Equal b
        · rfl
        · exact absurd ((headerExtra_equal_iff_eq a b).1 heq) h
      have h2 : b.Equal a = false := by
        cases heq : b.Equal a
        · rfl
        · exact absurd (((headerExtra_equal_iff_eq b a).1 heq).symm) h
      rw [h1, h2]

/-- C7. Distinct law: dedup is idempotent, its result has no duplicates and
keeps exactly the first occurrences in input order, and inputs of length at
most 1 come back unchanged as a value. -/
theorem distinct_laws (s : List Address) :
    addressesDistinct (addressesDistinct s) = addressesDistinct s ∧
    (addressesDistinct s).Nodup ∧
    addressesDistinct s = firstOccurrencesFrom [] s ∧
    (addressesDistinct s).Sublist s ∧
    (s.length ≤ 1 → addressesDistinct s = s) := by
  refine ⟨?_, addressesDistinct_nodup s, ?_, ?_, fun h => ?_⟩
  · rw [addressesDistinct_eq_distinctLoop (addressesDistinct s)]
    exact distinctLoop_eq_self (addressesDistinct s) [] (addressesDistinct_nodup s)
      (fun x _ hx => (List.not_mem_nil x) hx)
  · rw [addressesDistinct_eq_distinctLoop s,
      firstOccurrencesFrom_eq_distinctLoop s [] [] (fun x => Iff.rfl)]
  · rw [addressesDistinct_eq_distinctLoop s]
    exact distinctLoop_sublist s []
  · unfold addressesDistinct
    rw [if_pos h]

theorem distinct_laws_witness : addressesDistinct [7] = [7] :=
  (distinct_laws [7]).2.2.2.2 (by decide)

/-- C8. Remove law: after removing an address it is no longer contained, the
remaining elements keep their relative order, exactly the non-matching
elements survive, and removing a non-member leaves the list unchanged. -/
theorem remove_law (s : List Address) (x : Address) :
    addressesExist (addressesRemove s x) x = false ∧
    (∀ y : Address, y ∈ addressesRemove s x ↔ y ∈ s ∧ y ≠ x) ∧
    (addressesRemove s x).Sublist s ∧
    (x ∉ s → addressesRemove s x = s) := by
  refine ⟨?_, fun y => mem_addressesRemove s x y, addressesRemove_sublist s x,
    addressesRemove_of_not_mem s x⟩
  cases h : addressesExist (addressesRemove s x) x
  · rfl
  · exact absurd ((mem_addressesRemove s x x).1 ((addressesExist_iff_mem _ x).1 h)).2
      (by simp)

theorem remove_law_witness : addressesRemove [1, 3] 2 = [1, 3] :=
  (remove_law [1, 3] 2).2.2.2 (by decide)

/-- C9. An empty byte sequence never decodes (it is not a valid compressed
stream), so a header extra of length exactly vanity+seal — whose extracted
middle slice is empty — never yields a Payload from extract-then-decode. -/
theorem empty_payload_never_decodes :
    NewHeaderExtra [] = (zeroHeaderExtra, some .envelopeCorrupt) ∧
    ∀ (extraVanity extraSeal : Nat) (header : Header),
      header.Extra.length = extraVanity + extraSeal →
      DecodeHeaderExtra extraVanity extraSeal header =
        (zeroHeaderExtra, some .envelopeCorrupt) := by
  constructor
  · rfl
  · intro extraVanity extraSeal header hlen
    have hmid : (header.Extra.take (header.Extra.length - extraSeal)).drop extraVanity = [] := by
      apply List.drop_eq_nil_of_le
      rw [List.length_take]
      omega
    simp only [DecodeHeaderExtra]
    rw [if_neg (by omega), if_neg (by omega), hmid]
    rfl

theorem empty_payload_never_decodes_witness :
    DecodeHeaderExtra 2 3 ⟨[9, 9, 9, 9, 9]⟩ = (zeroHeaderExtra, some .envelopeCorrupt) :=
  empty_payload_never_decodes.2 2 3 ⟨[9, 9, 9, 9, 9]⟩ (by decide)

/-- C10. Zero value on decode failure: whenever decoding or extraction returns
an error, the Payload returned alongside it is exactly the zero Payload. -/
theorem zero_value_on_decode_failure :
    (∀ data : List Nat, (NewHeaderExtra data).2 ≠ none →
      (NewHeaderExtra data).1 = zeroHeaderExtra) ∧
    (∀ (extraVanity extraSeal : Nat) (header : Header),
      (DecodeHeaderExtra extraVanity extraSeal header).2 ≠ none →
      (DecodeHeaderExtra extraVanity extraSeal header).1 = zeroHeaderExtra) := by
  have hnew : ∀ data : List Nat, (NewHeaderExtra data).2 ≠ none →
      (NewHeaderExtra data).1 = zeroHeaderExtra := by
    intro data herr
    rcases hgz : gzipDecompress data with _ | buffer
    · simp [NewHeaderExtra, hgz]
    · rcases hdec : rlpDecodeBytes buffer with _ | he
      · simp [NewHeaderExtra, hgz, hdec]
      · exact absurd (by simp [NewHeaderExtra, hgz, hdec]) herr
  refine ⟨hnew, ?_⟩
  intro extraVanity extraSeal header herr
  by_cases h1 : header.Extra.length < extraVanity
  · simp [DecodeHeaderExtra, h1]
  · by_cases h2 : header.Extra.length < extraVanity + extraSeal
    · simp [DecodeHeaderExtra, h1, h2]
    · have hstep : DecodeHeaderExtra extraVanity extraSeal header =
          NewHeaderExtra ((header.Extra.take (header.Extra.length - extraSeal)).drop extraVanity) := by
        simp only [DecodeHeaderExtra]
        rw [if_neg h1, if_neg h2]
      rw [hstep] at herr ⊢
      exact hnew _ herr

theorem zero_value_on_decode_failure_witness :
    (NewHeaderExtra [0, 1]).1 = zeroHeaderExtra ∧
    (DecodeHeaderExtra 2 3 ⟨[9]⟩).1 = zeroHeaderExtra :=
  ⟨zero_value_on_decode_failure.1 [0, 1] (by decide),
   zero_value_on_decode_failure.2 2 3 ⟨[9]⟩ (by decide)⟩

end Equality
